import Mathlib

/-!
Verification development for the GeoCards repository (a browser geography
quiz).  The definitions below are shallow embeddings of the question-engine
code: the dataset filter and question samplers from `src/lib/questions.ts`
and the component revisions, the country-name normalizer and the
used-image ledger, and the session click evaluator.  Randomness
(`Math.random()` in the source) is modelled by explicit lists of natural
numbers passed to each call site; a value `r` drawn for a bound `n`
corresponds to the index `r % n`, so every outcome of the PRNG is
reachable by some parameter choice.  JavaScript truthiness on optional
strings (`if (x)`) is modelled explicitly: `none` and `some ""` are falsy.
-/

/-- One clue category of a country record: `{ type, images }`
(`src/types.ts`). -/
structure CountryItem where
  type : String
  images : List String
deriving DecidableEq

/-- One dataset record: `{ country, region, items }` (`src/types.ts`). -/
structure CountryEntry where
  country : String
  region : String
  items : List CountryItem
deriving DecidableEq

/-- One sampled clue `{ url, type }` (`src/types.ts`). -/
structure QuestionImage where
  url : String
  type : String
deriving DecidableEq

/-- A built question `{ correctCountry, images }` (`src/types.ts`). -/
structure Question where
  correctCountry : String
  images : List QuestionImage
deriving DecidableEq

/-- The optional constraint set `{ clueCount?, region?, itemType? }`
(`QuestionOptions` in `src/lib/questions.ts`). -/
structure QuestionOptions where
  clueCount : Option Nat
  region : Option String
  itemType : Option String
deriving DecidableEq

/-- JavaScript truthiness of an optional string: `undefined`/`null` and
the empty string are falsy. -/
def optStrTruthy : Option String → Bool
  | none => false
  | some s => s ≠ ""

/-- The destructuring swap `[a[i], a[j]] = [a[j], a[i]]` inside
`shuffleArray`.  Out-of-range indices leave the list unchanged (the
source never produces them). -/
def listSwap (a : List α) (i j : Nat) : List α :=
  match a[i]?, a[j]? with
  | some x, some y => (a.set i y).set j x
  | _, _ => a

/-- The Fisher-Yates loop of `shuffleArray`: `for (i = len-1; i > 0; i--)`
swapping index `i` with `j = floor(random * (i+1))`.  The random draw for
each iteration is supplied by the head of `rs` and reduced mod `i+1`. -/
def fyLoop : List α → Nat → List Nat → List α
  | a, 0, _ => a
  | a, Nat.succ i, rs => fyLoop (listSwap a (i + 1) (rs.headD 0 % (i + 2))) i rs.tail

/-- `shuffleArray` from `src/lib/questions.ts` (the identical copies in the
component revisions share this definition): copy the array and run the
Fisher-Yates loop.  `rs` supplies the `Math.random()` draws. -/
def shuffleArray (rs : List Nat) (a : List α) : List α :=
  fyLoop a (a.length - 1) rs


/-- The lowercase map applied by `toLowerCase()` call sites.  ASCII is
mapped exactly; outside ASCII a fixed table covers the common Latin-1
uppercase letters and other characters are left unchanged. -/
def jsLowerChar (c : Char) : Char :=
  if c.toNat < 128 then
    if 65 ≤ c.toNat ∧ c.toNat ≤ 90 then Char.ofNat (c.toNat + 32) else c
  else if c == 'À' then 'à'
  else if c == 'Á' then 'á'
  else if c == 'Â' then 'â'
  else if c == 'Ä' then 'ä'
  else if c == 'Ç' then 'ç'
  else if c == 'É' then 'é'
  else if c == 'È' then 'è'
  else if c == 'Ê' then 'ê'
  else if c == 'Î' then 'î'
  else if c == 'Ï' then 'ï'
  else if c == 'Ñ' then 'ñ'
  else if c == 'Ó' then 'ó'
  else if c == 'Ô' then 'ô'
  else if c == 'Ö' then 'ö'
  else if c == 'Û' then 'û'
  else if c == 'Ü' then 'ü'
  else c

/-- A string `toLowerCase()` call. -/
def lowerStr (s : String) : String := String.mk (s.data.map jsLowerChar)

/-- `validItems` (identical in `src/lib/questions.ts` and the component
revisions): drop clue items whose image list is empty. -/
def validItems (items : List CountryItem) : List CountryItem :=
  items.filter (fun it => !it.images.isEmpty)

/-- The region guard `if (options.region && entry.region !== options.region)`
shared by the `pickQuestion` filters: a missing or empty `region` option
never blocks, otherwise the record is blocked exactly when its region
differs from the option. -/
def regionBlocks : Option String → String → Bool
  | none, _ => false
  | some r, er => r != "" && er != r

/-- `gatherImages` from `src/lib/questions.ts`: pool every image of every
valid item, restricted to the (lowercased) `itemType` when that is a
non-empty string. -/
def gatherImages (items : List CountryItem) (itemType : Option String) : List QuestionImage :=
  let targetType := itemType.map lowerStr
  let usableItems := (validItems items).filter (fun it =>
    match targetType with
    | none => true
    | some t => if t = "" then true else lowerStr it.type == t)
  usableItems.flatMap (fun it => it.images.map (fun u => { url := u, type := it.type }))

/-- The candidate predicate of `pickQuestion` in `src/lib/questions.ts`:
the region guard, then `gatherImages(...).length >= clueCount`. -/
def candidateTS (opts : QuestionOptions) (e : CountryEntry) : Bool :=
  if regionBlocks opts.region e.region then false
  else decide (opts.clueCount.getD 3 ≤ (gatherImages e.items opts.itemType).length)

/-- The Dataset Filter of `src/lib/questions.ts` (`pickQuestion`'s
`candidates` list). -/
def candidatesTS (dataset : List CountryEntry) (opts : QuestionOptions) : List CountryEntry :=
  dataset.filter (candidateTS opts)

/-- `buildQuestion` from `src/lib/questions.ts`: shuffle the pooled
images, take the first `clueCount`. -/
def buildQuestionTS (rs : List Nat) (entry : CountryEntry) (opts : QuestionOptions) :
    Option Question :=
  let clueCount := opts.clueCount.getD 3
  let imagesPool := gatherImages entry.items opts.itemType
  if imagesPool.length < clueCount then none
  else some { correctCountry := entry.country
              images := (shuffleArray rs imagesPool).take clueCount }

/-- `pickQuestion` from `src/lib/questions.ts`: filter, then build a
question for a randomly chosen candidate (`pickR` supplies the draw). -/
def pickQuestionTS (rs : List Nat) (pickR : Nat) (dataset : List CountryEntry)
    (opts : QuestionOptions) : Option Question :=
  let candidates := candidatesTS dataset opts
  if candidates.isEmpty then none
  else buildQuestionTS rs (candidates.getD (pickR % candidates.length) ⟨"", "", []⟩) opts

/-- The zod schema `countryItemSchema` of `src/lib/questions.ts`:
`type: z.string().min(1)`, `images: z.array(z.string().min(1)).min(1)`. -/
def itemValid (it : CountryItem) : Bool :=
  decide (1 ≤ it.type.length) && decide (1 ≤ it.images.length)
    && it.images.all (fun u => decide (1 ≤ u.length))

/-- The zod schema `countryEntrySchema` of `src/lib/questions.ts`:
`country: min(1)`, `region: min(1)`, `items: array(...).min(1)`. -/
def countryEntryValid (e : CountryEntry) : Bool :=
  decide (1 ≤ e.country.length) && decide (1 ≤ e.region.length)
    && decide (1 ≤ e.items.length) && e.items.all itemValid

/-- `validateDataset` / `datasetSchema` of `src/lib/questions.ts` as a
predicate on structurally well-typed input: a non-empty array of valid
records.  `datasetSchema.parse` succeeds exactly when this holds. -/
def datasetValid (d : List CountryEntry) : Bool :=
  decide (1 ≤ d.length) && d.all countryEntryValid

/-- `getUniqueTypeItems` of `part_000`, with the `seen` set made
explicit: keep the first item for each non-empty lowercased type key. -/
def getUniqueTypeItemsAux (seen : List String) : List CountryItem → List CountryItem
  | [] => []
  | it :: rest =>
    let key := lowerStr it.type
    if key = "" ∨ key ∈ seen then getUniqueTypeItemsAux seen rest
    else it :: getUniqueTypeItemsAux (key :: seen) rest

/-- `getUniqueTypeItems` of `part_000`. -/
def getUniqueTypeItems (items : List CountryItem) : List CountryItem :=
  getUniqueTypeItemsAux [] items

/-- `getImagesForType` of `part_000`: pool the images of items matching
the lowercased target type; a falsy (`null` or empty) `itemType` matches
every item. -/
def getImagesForType (items : List CountryItem) (itemType : Option String) : List QuestionImage :=
  let target : Option String :=
    if optStrTruthy itemType then some (lowerStr (itemType.getD "")) else none
  items.flatMap (fun it =>
    match target with
    | none => it.images.map (fun u => { url := u, type := it.type })
    | some t =>
      if lowerStr it.type = t then it.images.map (fun u => { url := u, type := it.type })
      else [])

/-- The per-type image draws of `buildQuestion` in `part_000`: one random
image from each chosen item (`rs` supplies one draw per item). -/
def pickImages : List Nat → List CountryItem → List QuestionImage
  | _, [] => []
  | rs, it :: rest =>
    { url := it.images.getD (rs.headD 0 % it.images.length) "", type := it.type }
      :: pickImages rs.tail rest

/-- `buildQuestion` of `part_000`.  Pooled mode when `itemType` is truthy;
otherwise per-type mode: shuffle the distinct-type items, take
`clueCount` of them and draw one image from each. -/
def buildQuestionJS (srs irs : List Nat) (entry : CountryEntry) (opts : QuestionOptions) :
    Option Question :=
  let clueCount := opts.clueCount.getD 3
  let usableItems := validItems entry.items
  if usableItems.isEmpty then none
  else if optStrTruthy opts.itemType then
    let imagesPool := getImagesForType usableItems opts.itemType
    if imagesPool.length < clueCount then none
    else some { correctCountry := entry.country
                images := (shuffleArray srs imagesPool).take clueCount }
  else
    let uniqueItems := getUniqueTypeItems usableItems
    if uniqueItems.length < clueCount then none
    else some { correctCountry := entry.country
                images := pickImages irs ((shuffleArray srs uniqueItems).take clueCount) }

/-- The candidate predicate of `pickQuestion` in `part_000`: region guard,
at least one valid item, then pooled image count (truthy `itemType`) or
distinct-type count (per-type mode) at least `clueCount`. -/
def candidateJS (opts : QuestionOptions) (e : CountryEntry) : Bool :=
  if regionBlocks opts.region e.region then false
  else
    let usableItems := validItems e.items
    if usableItems.isEmpty then false
    else if optStrTruthy opts.itemType then
      decide (opts.clueCount.getD 3 ≤ (getImagesForType usableItems opts.itemType).length)
    else decide (opts.clueCount.getD 3 ≤ (getUniqueTypeItems usableItems).length)

/-- The Dataset Filter of `part_000` (`pickQuestion`'s `candidates`). -/
def candidatesJS (dataset : List CountryEntry) (opts : QuestionOptions) : List CountryEntry :=
  dataset.filter (candidateJS opts)

/-- `pickQuestion` of `part_000`. -/
def pickQuestionJS (srs irs : List Nat) (pickR : Nat) (dataset : List CountryEntry)
    (opts : QuestionOptions) : Option Question :=
  let candidates := candidatesJS dataset opts
  if candidates.isEmpty then none
  else buildQuestionJS srs irs (candidates.getD (pickR % candidates.length) ⟨"", "", []⟩) opts

/-- The number of distinct clue types of a record that still have at
least one image, matching the spec reading of "available clues" in
per-type mode.  Type identity is case-insensitive (the source compares
lowercased keys) and the degenerate empty type name is not counted. -/
def clueTypeCount (e : CountryEntry) : Nat :=
  (((validItems e.items).map (fun it => lowerStr it.type)).filter (fun k => k != "")).toFinset.card

/-- The per-session quiz state of the `part_000` component: the active
question, the clicked country (`selected`), the correctness flag, and the
score/answered/streak counters. -/
structure SessionState where
  question : Option Question
  selected : Option String
  isCorrect : Option Bool
  score : Nat
  answered : Nat
  streak : Nat
deriving DecidableEq

/-- The initial `useState` values of the component. -/
def initState : SessionState :=
  { question := none, selected := none, isCorrect := none, score := 0, answered := 0, streak := 0 }

/-- `handleCountryClick` of `part_000` (the revision in `part_002` that
imports `lib/questions` is identical): ignore the click when `selected`
is truthy or no question is active, otherwise record the selection and
update the metrics. -/
def handleCountryClick (countryName : String) (st : SessionState) : SessionState :=
  match st.question with
  | none => st
  | some q =>
    if optStrTruthy st.selected then st
    else
      let correct : Bool := countryName == q.correctCountry
      { st with
        selected := some countryName
        isCorrect := some correct
        answered := st.answered + 1
        score := if correct then st.score + 1 else st.score
        streak := if correct then st.streak + 1 else 0 }

/-- A click as delivered by the map layer: `onEachCountry` drops features
with a falsy `name` (`if (!name) return;`) before wiring
`handleCountryClick`. -/
def countryClick (countryName : String) (st : SessionState) : SessionState :=
  if countryName = "" then st else handleCountryClick countryName st

/-- The state-changing events of the session: a map click, or
`rerollQuestion` (also covering `nextQuestion` and filter changes), which
installs a new question (possibly none) and always clears the selection
and correctness flag, optionally resetting the counters. -/
inductive SessionEvent where
  | click (countryName : String)
  | reroll (next : Option Question) (resetStats : Bool)

/-- One step of the session state machine. -/
def sessionStep (ev : SessionEvent) (st : SessionState) : SessionState :=
  match ev with
  | .click n => countryClick n st
  | .reroll nxt resetStats =>
    { question := nxt
      selected := none
      isCorrect := none
      score := if resetStats then 0 else st.score
      answered := if resetStats then 0 else st.answered
      streak := if resetStats then 0 else st.streak }

/-- Run a list of events from the initial state. -/
def runSession (evs : List SessionEvent) : SessionState :=
  evs.foldl (fun st ev => sessionStep ev st) initState

/-- The whitespace class used by `trim()` and the `\s` regex class
(space, tab, line feed, carriage return, vertical tab, form feed,
no-break space). -/
def isJsWs (c : Char) : Bool :=
  c == ' ' || c == Char.ofNat 9 || c == Char.ofNat 10 || c == Char.ofNat 13
    || c == Char.ofNat 11 || c == Char.ofNat 12 || c == Char.ofNat 160

/-- Removal of trailing whitespace (the tail half of `trim()`). -/
def rstrip : List Char → List Char
  | [] => []
  | c :: rest =>
    match rstrip rest with
    | [] => if isJsWs c then [] else [c]
    | r => c :: r

/-- `String.prototype.trim()`: drop leading and trailing whitespace. -/
def trimChars (l : List Char) : List Char := rstrip (l.dropWhile isJsWs)

/-- The regex replacement `replace(/\s+/g, " ")`: each maximal whitespace
run becomes a single space. -/
def collapseWs : List Char → List Char
  | [] => []
  | [c] => if isJsWs c then [' '] else [c]
  | c :: d :: rest =>
    if isJsWs c then
      if isJsWs d then collapseWs (d :: rest) else ' ' :: collapseWs (d :: rest)
    else c :: collapseWs (d :: rest)

/-- Canonical decomposition (`normalize("NFD")`) of one character: the
identity on ASCII (as in Unicode), a fixed table for common Latin-1
accented letters, and the identity elsewhere. -/
def nfdChar (c : Char) : List Char :=
  if c.toNat < 128 then [c]
  else if c == 'à' then ['a', Char.ofNat 768]
  else if c == 'á' then ['a', Char.ofNat 769]
  else if c == 'â' then ['a', Char.ofNat 770]
  else if c == 'ä' then ['a', Char.ofNat 776]
  else if c == 'ç' then ['c', Char.ofNat 807]
  else if c == 'è' then ['e', Char.ofNat 768]
  else if c == 'é' then ['e', Char.ofNat 769]
  else if c == 'ê' then ['e', Char.ofNat 770]
  else if c == 'ë' then ['e', Char.ofNat 776]
  else if c == 'î' then ['i', Char.ofNat 770]
  else if c == 'ï' then ['i', Char.ofNat 776]
  else if c == 'ñ' then ['n', Char.ofNat 771]
  else if c == 'ó' then ['o', Char.ofNat 769]
  else if c == 'ô' then ['o', Char.ofNat 770]
  else if c == 'ö' then ['o', Char.ofNat 776]
  else if c == 'û' then ['u', Char.ofNat 770]
  else if c == 'ü' then ['u', Char.ofNat 776]
  else [c]

/-- Concatenated character decompositions. -/
def nfdExpand : List Char → List Char
  | [] => []
  | c :: rest => nfdChar c ++ nfdExpand rest

/-- A combining diacritical mark (the regex range `[̀-ͯ]`). -/
def isCombining (c : Char) : Bool := decide (768 ≤ c.toNat) && decide (c.toNat ≤ 879)

/-- `stripDiacritics` of `part_002`: NFD-decompose, then drop combining
marks. -/
def stripDiacritics (l : List Char) : List Char :=
  (nfdExpand l).filter (fun c => !isCombining c)

/-- A character surviving the final `replace(/[^a-z'\s-]/g, "")` strip:
a lowercase ASCII letter, an apostrophe, a hyphen, or whitespace. -/
def keepChar (c : Char) : Bool :=
  (decide (97 ≤ c.toNat) && decide (c.toNat ≤ 122)) || c == Char.ofNat 39 || c == '-'
    || isJsWs c

/-- The `replace(/[^a-z'\s-]/g, "")` strip. -/
def stripCharset (l : List Char) : List Char := l.filter keepChar

/-- The `ALIASES` table of `part_002`, in source order. -/
def ALIASES : List (String × String) :=
  [("united states of america", "united states"),
   ("usa", "united states"),
   ("us", "united states"),
   ("russian federation", "russia"),
   ("republic of korea", "south korea"),
   ("korea, republic of", "south korea"),
   ("korea (republic of)", "south korea"),
   ("korea, democratic people\x27s republic of", "north korea"),
   ("democratic people\x27s republic of korea", "north korea"),
   ("syrian arab republic", "syria"),
   ("czech republic", "czechia"),
   ("swaziland", "eswatini"),
   ("cabo verde", "cape verde"),
   ("myanmar", "burma"),
   ("ivory coast", "cote d\x27ivoire"),
   ("côte d’ivoire", "cote d\x27ivoire"),
   ("lao people\x27s democratic republic", "laos"),
   ("plurinational state of bolivia", "bolivia"),
   ("islamic republic of iran", "iran"),
   ("united republic of tanzania", "tanzania"),
   ("republic of moldova", "moldova"),
   ("macedonia", "north macedonia"),
   ("bosnia & herzegovina", "bosnia and herzegovina")]

/-- The final alias lookup: replace the cleaned string by its canonical
form when the table has it. -/
def aliasCanon (s : String) : String :=
  match ALIASES.lookup s with
  | some v => v
  | none => s

/-- The cleanup pipeline of `normalizeCountryName`, on character lists:
trim, lowercase, strip diacritics, collapse whitespace runs, strip the
disallowed characters. -/
def pipelineChars (l : List Char) : List Char :=
  stripCharset (collapseWs (stripDiacritics ((trimChars l).map jsLowerChar)))

/-- `normalizeCountryName` of `part_002`: the empty (falsy) string maps
to itself; otherwise clean the string and apply the alias table. -/
def normalizeCountryName (name : String) : String :=
  if name = "" then "" else aliasCanon (String.mk (pipelineChars name.data))

/-- The `type|url` key stored in the used-image ledger. -/
def ledgerKey (t u : String) : String := t ++ "|" ++ u

/-- `Set.prototype.add`: insert a key if not present. -/
def addKey (k : String) (used : List String) : List String :=
  if k ∈ used then used else k :: used

/-- The cycle reset `for (const u of it.images) usedForCountry.delete(...)`:
remove every ledger key of the item. -/
def removeItemKeys (it : CountryItem) (used : List String) : List String :=
  used.filter (fun k => !((it.images.map (ledgerKey it.type)).contains k))

/-- The exhausted-type branch of the ledger sampler: clear the item's
keys, take the first shuffled image, and record it. -/
def resetPick (imgs : List String) (it : CountryItem) (used : List String) :
    QuestionImage × List String :=
  let used2 := removeItemKeys it used
  let choice := imgs.headD ""
  ({ url := choice, type := it.type }, addKey (ledgerKey it.type choice) used2)

/-- One image draw of the no-repeat `pickQuestion` in `part_002`: shuffle
the item's images, take the first whose key is unused; when none is found
(or the found url is falsy) reset the cycle for this item.  The chosen
key is always added to the returned ledger. -/
def pickImage (rs : List Nat) (it : CountryItem) (used : List String) :
    QuestionImage × List String :=
  let imgs := shuffleArray rs it.images
  match imgs.find? (fun u => !(used.contains (ledgerKey it.type u))) with
  | some choice =>
    if choice = "" then resetPick imgs it used
    else ({ url := choice, type := it.type }, addKey (ledgerKey it.type choice) used)
  | none => resetPick imgs it used

/-- The image draws of the no-repeat `pickQuestion`, threading the
per-country ledger through `pickImage` (one random stream per item). -/
def pickImagesLedger : List (List Nat) → List CountryItem → List String →
    List QuestionImage × List String
  | _, [], used => ([], used)
  | rss, it :: rest, used =>
    let p := pickImage (rss.headD []) it used
    let q := pickImagesLedger rss.tail rest p.2
    (p.1 :: q.1, q.2)

/-- The no-repeat `pickQuestion` of `part_002`: candidates are records
with at least three valid items; prefer a country other than the
previous one when possible; draw three distinct items and one
non-repeating image from each, returning the question and updated
ledger map. -/
def pickQuestionLedger (crs : Nat) (srs : List Nat) (irs : List (List Nat))
    (dataset : List CountryEntry) (excludeCountry : Option String)
    (usedMap : List (String × List String)) :
    Option (Question × List (String × List String)) :=
  let candidates := dataset.filter (fun e => decide (3 ≤ (validItems e.items).length))
  if candidates.isEmpty then none
  else
    let pool :=
      if optStrTruthy excludeCountry && decide (1 < candidates.length) then
        let p := candidates.filter (fun c =>
          normalizeCountryName c.country != normalizeCountryName (excludeCountry.getD ""))
        if p.isEmpty then candidates else p
      else candidates
    let correct := pool.getD (crs % pool.length) ⟨"", "", []⟩
    let itemPool := shuffleArray srs (validItems correct.items)
    let chosenItems := itemPool.take 3
    let usedForCountry := (usedMap.lookup correct.country).getD []
    let r := pickImagesLedger irs chosenItems usedForCountry
    some ({ correctCountry := correct.country, images := r.1 },
      (correct.country, r.2) :: usedMap.filter (fun p => p.1 != correct.country))

/-- A character that the cleanup pipeline can never remove or change: a
lowercase ASCII letter, apostrophe, hyphen, or plain space. -/
def allowedChar (c : Char) : Bool :=
  (decide (97 ≤ c.toNat) && decide (c.toNat ≤ 122)) || c == Char.ofNat 39 || c == '-'
    || c == ' '

/-- A character list that does not start with whitespace. -/
def noWsLead : List Char → Prop
  | [] => True
  | c :: _ => isJsWs c = false

/-- A character list that does not end with whitespace. -/
def noWsTrail : List Char → Prop
  | [] => True
  | [c] => isJsWs c = false
  | _ :: c :: rest => noWsTrail (c :: rest)

/-- Concrete record with a single clue type carrying three images: it has
a pooled image count of 3 but only one distinct clue type. -/
def singleTypeEntry : CountryEntry :=
  ⟨"Testland", "Europe", [⟨"bollard", ["a.jpg", "b.jpg", "c.jpg"]⟩]⟩

/-- Concrete record matching the spec's end-to-end scenario: three clue
types with one image each. -/
def franceEntry : CountryEntry :=
  ⟨"France", "Europe", [⟨"bollard", ["a.jpg"]⟩, ⟨"pole", ["b.jpg"]⟩, ⟨"sign", ["c.jpg"]⟩]⟩

/-- Concrete record in a different region, used to exercise the region
filter. -/
def japanEntry : CountryEntry :=
  ⟨"Japan", "Asia", [⟨"bollard", ["x.jpg"]⟩, ⟨"pole", ["y.jpg"]⟩, ⟨"sign", ["z.jpg"]⟩]⟩

/-- A record exactly as `generate-data.mjs` emits it before the region is
filled in manually: the `region` field is the empty string. -/
def generatedFranceEntry : CountryEntry :=
  ⟨"France", "", [⟨"bollard", ["/images/france/bollard_1.jpg", "/images/france/bollard_2.jpg"]⟩,
    ⟨"pole", ["/images/france/pole_1.jpg"]⟩, ⟨"sign", ["/images/france/sign_1.jpg"]⟩]⟩

/-- A concrete active question used in session-state witnesses. -/
def franceQuestion : Question :=
  ⟨"France", [⟨"a.jpg", "bollard"⟩, ⟨"b.jpg", "pole"⟩, ⟨"c.jpg", "sign"⟩]⟩

/-- The empty constraint set (all options omitted). -/
def defaultOpts : QuestionOptions := ⟨none, none, none⟩

theorem set_getElem_self {a : List α} {i : Nat} {x : α} (h : a[i]? = some x) :
    a.set i x = a := by
  induction a generalizing i with
  | nil => simp at h
  | cons b t ih =>
    cases i with
    | zero => simp at h; simp [h]
    | succ n => simp at h; simp [List.set, ih h]

theorem cons_set_perm {t : List α} {k : Nat} {x y : α} (h : t[k]? = some y) :
    (y :: t.set k x).Perm (x :: t) := by
  induction t generalizing k with
  | nil => simp at h
  | cons z t' ih =>
    cases k with
    | zero =>
      simp only [List.getElem?_cons_zero, Option.some.injEq] at h
      rw [← h]
      exact List.Perm.swap x z t'
    | succ n =>
      simp only [List.getElem?_cons_succ] at h
      have hperm := ih h
      have s1 : (z :: t').set (n + 1) x = z :: t'.set n x := rfl
      rw [s1]
      exact ((List.Perm.swap z y (t'.set n x)).trans (hperm.cons z)).trans
        (List.Perm.swap x z t')

theorem set_set_perm_lt {a : List α} {i j : Nat} {x y : α} (hij : i < j)
    (hi : a[i]? = some x) (hj : a[j]? = some y) :
    ((a.set i y).set j x).Perm a := by
  induction a generalizing i j with
  | nil => simp at hi
  | cons z t ih =>
    obtain ⟨m, rfl⟩ : ∃ m, j = m + 1 := ⟨j - 1, by omega⟩
    cases i with
    | zero =>
      simp only [List.getElem?_cons_zero, Option.some.injEq] at hi
      simp only [List.getElem?_cons_succ] at hj
      rw [← hi]
      have s : ((z :: t).set 0 y).set (m + 1) z = y :: t.set m z := rfl
      rw [s]
      exact cons_set_perm hj
    | succ n =>
      simp only [List.getElem?_cons_succ] at hi hj
      have s : ((z :: t).set (n + 1) y).set (m + 1) x = z :: (t.set n y).set m x := rfl
      rw [s]
      exact (ih (by omega) hi hj).cons z

theorem listSwap_perm (a : List α) (i j : Nat) : (listSwap a i j).Perm a := by
  rcases hi : a[i]? with _ | x
  · have : listSwap a i j = a := by simp [listSwap, hi]
    rw [this]
  · rcases hj : a[j]? with _ | y
    · have : listSwap a i j = a := by simp [listSwap, hi, hj]
      rw [this]
    · have hred : listSwap a i j = (a.set i y).set j x := by simp [listSwap, hi, hj]
      rw [hred]
      rcases Nat.lt_trichotomy i j with h | rfl | h
      · exact set_set_perm_lt h hi hj
      · have hxy : x = y := by
          have := hi.symm.trans hj
          exact Option.some.inj this
        subst hxy
        rw [List.set_set, set_getElem_self hi]
      · rw [List.set_comm y x a (by omega)]
        exact set_set_perm_lt h hj hi

theorem fyLoop_perm : ∀ (i : Nat) (a : List α) (rs : List Nat), (fyLoop a i rs).Perm a
  | 0, _, _ => List.Perm.refl _
  | Nat.succ i, a, rs =>
    (fyLoop_perm i _ rs.tail).trans (listSwap_perm a (i + 1) (rs.headD 0 % (i + 2)))

/-- The shuffle only rearranges the input. -/
theorem shuffleArray_perm (rs : List Nat) (a : List α) : (shuffleArray rs a).Perm a :=
  fyLoop_perm _ a rs

theorem shuffleArray_length (rs : List Nat) (a : List α) :
    (shuffleArray rs a).length = a.length :=
  (shuffleArray_perm rs a).length_eq

theorem shuffleArray_mem {rs : List Nat} {a : List α} {x : α} :
    x ∈ shuffleArray rs a ↔ x ∈ a :=
  (shuffleArray_perm rs a).mem_iff
/-- C10: `shuffleArray` returns a permutation of its input list: the same
elements with the same multiplicities.  The embedding is pure, so the
input itself is left unchanged, matching the source's copy-then-swap. -/
theorem shuffleArray_is_permutation (α : Type) (rs : List Nat) (a : List α) :
    (shuffleArray rs a).Perm a :=
  shuffleArray_perm rs a

/-- C5: the normalizer identifies the known aliases:
`normalize("Russian Federation") = normalize("russia")`,
`normalize("USA") = normalize("United States")`, and
`normalize("czech republic") = normalize("czechia")`. -/
theorem normalize_alias_equivalences :
    normalizeCountryName "Russian Federation" = normalizeCountryName "russia" ∧
    normalizeCountryName "USA" = normalizeCountryName "United States" ∧
    normalizeCountryName "czech republic" = normalizeCountryName "czechia" := by
  refine ⟨?_, ?_, ?_⟩ <;> rfl

/-- C3 (divergence evidence): dataset validation rejects a record whose
`region` is the empty string, exactly the shape `generate-data.mjs`
emits, while the same record with a non-empty region is accepted.  The
schema `region: z.string().min(1)` contradicts the generator and the
spec's "region (string, may be empty)". -/
theorem validateDataset_rejects_empty_region :
    generatedFranceEntry.region = "" ∧
    datasetValid [generatedFranceEntry] = false ∧
    datasetValid [{ generatedFranceEntry with region := "Europe" }] = true := by
  refine ⟨rfl, ?_, ?_⟩ <;> rfl

/-- C1 counterexample: in `src/lib/questions.ts` the filter counts pooled
images, not distinct clue types, even when no `itemType` is given.  A
record with a single clue type carrying three images has fewer than 3
distinct clue types, yet the candidate list is not empty. -/
theorem pooled_filter_accepts_single_type_record :
    clueTypeCount singleTypeEntry = 1 ∧
    candidatesTS [singleTypeEntry] defaultOpts = [singleTypeEntry] := by
  refine ⟨?_, ?_⟩ <;> decide

/-- C2 counterexample: in `src/lib/questions.ts` the sampler draws from
the pooled image list even when no `itemType` is given, so a qualifying
single-type record yields three images sharing one type. -/
theorem pooled_sampler_repeats_type :
    candidateTS defaultOpts singleTypeEntry = true ∧
    (buildQuestionTS [0, 0] singleTypeEntry defaultOpts).isSome = true ∧
    ((buildQuestionTS [0, 0] singleTypeEntry defaultOpts).getD ⟨"", []⟩).images.map
      (fun i => i.type) = ["bollard", "bollard", "bollard"] := by
  refine ⟨?_, ?_, ?_⟩ <;> decide

/-- C8 counterexample: a constraint set that specifies the region as the
empty string is treated as unconstrained by both filter revisions (the
guard tests JavaScript truthiness), so a record whose region is
"Asia" remains a candidate. -/
theorem empty_region_option_not_filtered :
    japanEntry.region ≠ "" ∧
    candidatesTS [japanEntry] ⟨none, some "", none⟩ = [japanEntry] ∧
    candidatesJS [japanEntry] ⟨none, some "", none⟩ = [japanEntry] := by
  refine ⟨?_, ?_, ?_⟩ <;> decide

/-- C4 counterexample: the normalizer is not idempotent.  On "1 a" the
digit is stripped only after whitespace collapsing, leaving " a", whose
second normalization trims to "a". -/
theorem normalize_not_idempotent :
    normalizeCountryName (normalizeCountryName "1 a") ≠ normalizeCountryName "1 a" := by
  decide

/-- C6: clicking while a question is active and unanswered increments
`answered`; a correct click (the identifier equals `correctCountry`) also
increments `score` and `streak`; an incorrect click resets `streak` to 0
and leaves `score` unchanged. -/
theorem click_updates_metrics (st : SessionState) (q : Question) (countryName : String)
    (hq : st.question = some q) (hs : st.selected = none) :
    (handleCountryClick countryName st).answered = st.answered + 1 ∧
    (countryName = q.correctCountry →
      (handleCountryClick countryName st).score = st.score + 1 ∧
      (handleCountryClick countryName st).streak = st.streak + 1) ∧
    (countryName ≠ q.correctCountry →
      (handleCountryClick countryName st).streak = 0 ∧
      (handleCountryClick countryName st).score = st.score) := by
  have h : handleCountryClick countryName st =
      { st with
        selected := some countryName
        isCorrect := some (countryName == q.correctCountry)
        answered := st.answered + 1
        score := if countryName == q.correctCountry then st.score + 1 else st.score
        streak := if countryName == q.correctCountry then st.streak + 1 else 0 } := by
    unfold handleCountryClick
    rw [hq]
    simp [hs, optStrTruthy]
  rw [h]
  refine ⟨rfl, fun hc => ?_, fun hc => ?_⟩
  · simp [hc]
  · simp [hc]

/-- Witness for C6 at a concrete state: a correct click on "France". -/
theorem click_updates_metrics_witness :
    (handleCountryClick "France" ⟨some franceQuestion, none, none, 2, 5, 1⟩).answered = 6 ∧
    (handleCountryClick "France" ⟨some franceQuestion, none, none, 2, 5, 1⟩).score = 3 ∧
    (handleCountryClick "France" ⟨some franceQuestion, none, none, 2, 5, 1⟩).streak = 2 := by
  have h := click_updates_metrics ⟨some franceQuestion, none, none, 2, 5, 1⟩
    franceQuestion "France" rfl rfl
  exact ⟨h.1, (h.2.1 rfl).1, (h.2.1 rfl).2⟩

theorem sessionStep_selected_ne_empty (ev : SessionEvent) (st : SessionState)
    (h : st.selected ≠ some "") : (sessionStep ev st).selected ≠ some "" := by
  cases ev with
  | click n =>
    simp only [sessionStep, countryClick]
    by_cases hn : n = ""
    · simpa [hn] using h
    · simp only [hn, if_false, ite_false]
      unfold handleCountryClick
      cases hq : st.question with
      | none => exact h
      | some q =>
        by_cases hsel : optStrTruthy st.selected
        · simpa [hsel] using h
        · simp only [hsel, Bool.false_eq_true, if_false, ite_false]
          simpa using hn
  | reroll nxt resetStats => simp [sessionStep]

theorem runSession_selected_ne_empty (evs : List SessionEvent) :
    (runSession evs).selected ≠ some "" := by
  have main : ∀ (l : List SessionEvent) (st : SessionState), st.selected ≠ some "" →
      (l.foldl (fun s e => sessionStep e s) st).selected ≠ some "" := by
    intro l
    induction l with
    | nil => intro st h; exact h
    | cons e rest ih =>
      intro st h
      exact ih (sessionStep e st) (sessionStep_selected_ne_empty e st h)
  exact main evs initState (by simp [initState])

/-- C7: in every reachable session state in which a selection exists (the
question has been answered), a further map click leaves the entire state
unchanged: score, answered, streak, the selection and the correctness
flag. -/
theorem second_click_is_noop (evs : List SessionEvent) (s countryName : String)
    (hsel : (runSession evs).selected = some s) :
    countryClick countryName (runSession evs) = runSession evs := by
  have hne : (runSession evs).selected ≠ some "" := runSession_selected_ne_empty evs
  have hs : s ≠ "" := by
    intro h
    rw [h] at hsel
    exact hne hsel
  unfold countryClick
  by_cases hn : countryName = ""
  · simp [hn]
  · simp only [hn, if_false, ite_false]
    unfold handleCountryClick
    cases hq : (runSession evs).question with
    | none => rfl
    | some q =>
      have htruthy : optStrTruthy (runSession evs).selected = true := by
        rw [hsel]
        simpa [optStrTruthy] using hs
      simp [htruthy]

/-- Witness for C7: after answering "France", a further click on
"Germany" changes nothing. -/
theorem second_click_is_noop_witness :
    countryClick "Germany"
        (runSession [.reroll (some franceQuestion) false, .click "France"]) =
      runSession [.reroll (some franceQuestion) false, .click "France"] :=
  second_click_is_noop [.reroll (some franceQuestion) false, .click "France"]
    "France" "Germany" (by decide)

theorem regionBlocks_false_eq {r er : String} (hne : r ≠ "")
    (h : regionBlocks (some r) er = false) : er = r := by
  unfold regionBlocks at h
  rcases Bool.and_eq_false_iff.mp h with h1 | h2
  · exact absurd (by simpa using h1) hne
  · simpa using h2

/-- C8 (amended): when a non-empty region is specified, every candidate
of either filter revision has exactly that region (string equality).  A
specified empty-string region is falsy and imposes no constraint (see the
counterexample). -/
theorem nonempty_region_filter_exact (d : List CountryEntry) (r : String)
    (opts : QuestionOptions) (hr : opts.region = some r) (hne : r ≠ "")
    (e : CountryEntry) :
    (e ∈ candidatesTS d opts → e.region = r) ∧
    (e ∈ candidatesJS d opts → e.region = r) := by
  constructor
  · intro hmem
    have hc := List.of_mem_filter hmem
    unfold candidateTS at hc
    rw [hr] at hc
    cases hreg : regionBlocks (some r) e.region with
    | false => exact regionBlocks_false_eq hne hreg
    | true => simp [hreg] at hc
  · intro hmem
    have hc := List.of_mem_filter hmem
    unfold candidateJS at hc
    rw [hr] at hc
    cases hreg : regionBlocks (some r) e.region with
    | false => exact regionBlocks_false_eq hne hreg
    | true => simp [hreg] at hc

/-- Witness for C8 at a concrete dataset and the region "Europe". -/
theorem nonempty_region_filter_exact_witness :
    ("Europe" ≠ "") ∧ franceEntry.region = "Europe" := by
  refine ⟨by decide, ?_⟩
  exact (nonempty_region_filter_exact [franceEntry, japanEntry] "Europe"
    ⟨none, some "Europe", none⟩ rfl (by decide) franceEntry).1 (by decide)

theorem getUniqueTypeItemsAux_length (items : List CountryItem) :
    ∀ seen : List String,
      (getUniqueTypeItemsAux seen items).length =
        ((((items.map (fun it => lowerStr it.type)).filter (fun k => k != "")).toFinset)
          \ seen.toFinset).card := by
  induction items with
  | nil => intro seen; simp [getUniqueTypeItemsAux]
  | cons it rest ih =>
    intro seen
    simp only [getUniqueTypeItemsAux, List.map_cons]
    by_cases he : lowerStr it.type = ""
    · rw [if_pos (Or.inl he), ih seen]
      congr 2
      simp [List.filter_cons, he]
    · have hkb : (lowerStr it.type != "") = true := by simpa using he
      by_cases hm : lowerStr it.type ∈ seen
      · rw [if_pos (Or.inr hm), ih seen]
        congr 1
        rw [List.filter_cons, if_pos hkb, List.toFinset_cons]
        ext x
        simp only [Finset.mem_sdiff, Finset.mem_insert, List.mem_toFinset]
        constructor
        · rintro ⟨hx, hnx⟩
          exact ⟨Or.inr hx, hnx⟩
        · rintro ⟨hx | hx, hnx⟩
          · exact absurd (hx ▸ hm) hnx
          · exact ⟨hx, hnx⟩
      · rw [if_neg (by tauto), List.length_cons, ih (lowerStr it.type :: seen)]
        rw [List.filter_cons, if_pos hkb, List.toFinset_cons, List.toFinset_cons]
        set k := lowerStr it.type
        set F := ((rest.map (fun x => lowerStr x.type)).filter (fun x => x != "")).toFinset
          with hF
        set S := seen.toFinset with hS
        have hknot : k ∉ S := by simpa [hS] using hm
        have e1 : insert k F \ S = insert k (F \ S) := by
          ext x
          simp only [Finset.mem_sdiff, Finset.mem_insert]
          constructor
          · rintro ⟨hx | hx, hnx⟩
            · exact Or.inl hx
            · exact Or.inr ⟨hx, hnx⟩
          · rintro (rfl | ⟨hx, hnx⟩)
            · exact ⟨Or.inl rfl, hknot⟩
            · exact ⟨Or.inr hx, hnx⟩
        have e2 : F \ insert k S = (F \ S).erase k := by
          ext x
          simp only [Finset.mem_sdiff, Finset.mem_insert, Finset.mem_erase]
          tauto
        have e3 : insert k (F \ S) = insert k ((F \ S).erase k) := by
          ext x
          simp only [Finset.mem_insert, Finset.mem_erase]
          constructor
          · rintro (rfl | hx)
            · exact Or.inl rfl
            · by_cases hxk : x = k
              · exact Or.inl hxk
              · exact Or.inr ⟨hxk, hx⟩
          · rintro (rfl | ⟨_, hx⟩)
            · exact Or.inl rfl
            · exact Or.inr hx
        rw [e1, e2, e3, Finset.card_insert_of_not_mem (Finset.not_mem_erase _ _)]

theorem getUniqueTypeItems_length_eq_count (e : CountryEntry) :
    (getUniqueTypeItems (validItems e.items)).length = clueTypeCount e := by
  unfold getUniqueTypeItems clueTypeCount
  rw [getUniqueTypeItemsAux_length]
  simp

theorem candidatesJS_perType_eq (d : List CountryEntry) (opts : QuestionOptions)
    (hreg : opts.region = none) (hit : opts.itemType = none)
    (hk : 1 ≤ opts.clueCount.getD 3) :
    candidatesJS d opts =
      d.filter (fun e => decide (opts.clueCount.getD 3 ≤ clueTypeCount e)) := by
  unfold candidatesJS
  apply List.filter_congr
  intro e _
  unfold candidateJS
  rw [hreg, hit]
  simp only [regionBlocks, Bool.false_eq_true, if_false, ite_false, optStrTruthy]
  by_cases hempty : (validItems e.items).isEmpty
  · have hnil : validItems e.items = [] := by simpa [List.isEmpty_iff] using hempty
    have hzero : clueTypeCount e = 0 := by simp [clueTypeCount, hnil]
    rw [hzero]
    simp [hempty]
    omega
  · simp only [hempty, Bool.false_eq_true, if_false, ite_false]
    rw [getUniqueTypeItems_length_eq_count]

/-- C1 (amended): in per-type mode (no `itemType`, no `region`
constraint) the `part_000` Dataset Filter keeps a record exactly when its
number of distinct clue types with at least one image reaches `clueCount`
(default 3); consequently a dataset in which every record has fewer than
3 distinct clue types yields an empty candidate list.  In the
`src/lib/questions.ts` revision the filter instead counts pooled images
(see the counterexample). -/
theorem perType_filter_counts_distinct_types (d : List CountryEntry)
    (opts : QuestionOptions) (hreg : opts.region = none) (hit : opts.itemType = none)
    (hk : 1 ≤ opts.clueCount.getD 3) :
    candidatesJS d opts =
      d.filter (fun e => decide (opts.clueCount.getD 3 ≤ clueTypeCount e)) ∧
    ((∀ e ∈ d, clueTypeCount e < 3) → candidatesJS d defaultOpts = []) := by
  refine ⟨candidatesJS_perType_eq d opts hreg hit hk, fun hlt => ?_⟩
  rw [candidatesJS_perType_eq d defaultOpts rfl rfl (by decide)]
  rw [List.filter_eq_nil_iff]
  intro e he
  have := hlt e he
  simp only [decide_eq_true_eq, defaultOpts, Option.getD_none]
  omega

/-- Witness for C1: a dataset holding a three-type record and a
single-type record filters to exactly the three-type record. -/
theorem perType_filter_counts_distinct_types_witness :
    candidatesJS [franceEntry, singleTypeEntry] defaultOpts = [franceEntry] := by
  have h := (perType_filter_counts_distinct_types [franceEntry, singleTypeEntry]
    defaultOpts rfl rfl (by decide)).1
  rw [h]
  decide

theorem getUniqueTypeItemsAux_key_nodup (items : List CountryItem) :
    ∀ seen : List String,
      ((getUniqueTypeItemsAux seen items).map (fun it => lowerStr it.type)).Nodup ∧
      ∀ it ∈ getUniqueTypeItemsAux seen items, lowerStr it.type ∉ seen := by
  induction items with
  | nil => intro seen; simp [getUniqueTypeItemsAux]
  | cons it rest ih =>
    intro seen
    simp only [getUniqueTypeItemsAux]
    by_cases h1 : lowerStr it.type = "" ∨ lowerStr it.type ∈ seen
    · rw [if_pos h1]
      exact ih seen
    · rw [if_neg h1]
      push_neg at h1
      obtain ⟨hne, hnotin⟩ := h1
      obtain ⟨ihn, ihs⟩ := ih (lowerStr it.type :: seen)
      refine ⟨?_, ?_⟩
      · simp only [List.map_cons, List.nodup_cons]
        refine ⟨?_, ihn⟩
        intro hmem
        rcases List.mem_map.mp hmem with ⟨it2, hit2, hkey⟩
        have hseen := ihs it2 hit2
        rw [hkey] at hseen
        exact hseen (List.mem_cons_self _ _)
      · intro it2 hit2
        rcases List.mem_cons.mp hit2 with rfl | h2
        · exact hnotin
        · exact fun hc => ihs it2 h2 (List.mem_cons_of_mem _ hc)

theorem pickImages_length : ∀ (rs : List Nat) (items : List CountryItem),
    (pickImages rs items).length = items.length
  | _, [] => rfl
  | rs, it :: rest => by
    simp only [pickImages, List.length_cons, pickImages_length rs.tail rest]

theorem pickImages_map_type : ∀ (rs : List Nat) (items : List CountryItem),
    (pickImages rs items).map (fun i => i.type) = items.map (fun it => it.type)
  | _, [] => rfl
  | rs, it :: rest => by
    simp only [pickImages, List.map_cons, pickImages_map_type rs.tail rest]

/-- C2 (amended): for the `part_000` sampler and every qualifying record,
the built question holds exactly `clueCount` images; in per-type mode (no
`itemType`) no two of them share a `type`.  In the
`src/lib/questions.ts` revision the per-type distinctness fails (see the
counterexample); the exact-count half holds there as well. -/
theorem perType_sampler_distinct_types (entry : CountryEntry) (opts : QuestionOptions)
    (srs irs : List Nat) (hk : 1 ≤ opts.clueCount.getD 3) :
    (opts.itemType = none →
      opts.clueCount.getD 3 ≤ (getUniqueTypeItems (validItems entry.items)).length →
      ∃ q, buildQuestionJS srs irs entry opts = some q ∧
        q.images.length = opts.clueCount.getD 3 ∧
        (q.images.map (fun i => i.type)).Nodup) ∧
    (optStrTruthy opts.itemType = true →
      opts.clueCount.getD 3 ≤ (getImagesForType (validItems entry.items) opts.itemType).length →
      ∃ q, buildQuestionJS srs irs entry opts = some q ∧
        q.images.length = opts.clueCount.getD 3) := by
  constructor
  · intro hit hcount
    have husable : (validItems entry.items).isEmpty = false := by
      cases hv : validItems entry.items with
      | nil =>
        rw [hv] at hcount
        simp [getUniqueTypeItems, getUniqueTypeItemsAux] at hcount
        omega
      | cons a l => rfl
    have hnotlt :
        ¬ ((getUniqueTypeItems (validItems entry.items)).length < opts.clueCount.getD 3) := by
      omega
    unfold buildQuestionJS
    simp only [hit, husable, optStrTruthy, Bool.false_eq_true, if_false, ite_false, hnotlt]
    refine ⟨_, rfl, ?_, ?_⟩
    · rw [pickImages_length, List.length_take, shuffleArray_length]
      exact Nat.min_eq_left hcount
    · rw [pickImages_map_type]
      have h1 : ((getUniqueTypeItems (validItems entry.items)).map
          (fun it => lowerStr it.type)).Nodup :=
        (getUniqueTypeItemsAux_key_nodup (validItems entry.items) []).1
      have h2 : ((shuffleArray srs (getUniqueTypeItems (validItems entry.items))).map
          (fun it => lowerStr it.type)).Nodup :=
        (((shuffleArray_perm srs _).map (fun it : CountryItem => lowerStr it.type)).nodup_iff).mpr h1
      have h3 : (((shuffleArray srs (getUniqueTypeItems (validItems entry.items))).take
          (opts.clueCount.getD 3)).map (fun it => lowerStr it.type)).Nodup := by
        rw [List.map_take]
        exact h2.sublist (List.take_sublist _ _)
      have h4 : ((((shuffleArray srs (getUniqueTypeItems (validItems entry.items))).take
          (opts.clueCount.getD 3)).map (fun it => it.type)).map lowerStr).Nodup := by
        rw [List.map_map]
        exact h3
      exact h4.of_map lowerStr
  · intro htruthy hcount
    have husable : (validItems entry.items).isEmpty = false := by
      cases hv : validItems entry.items with
      | nil =>
        rw [hv] at hcount
        simp [getImagesForType] at hcount
        omega
      | cons a l => rfl
    have hnotlt :
        ¬ ((getImagesForType (validItems entry.items) opts.itemType).length <
          opts.clueCount.getD 3) := by
      omega
    unfold buildQuestionJS
    simp only [husable, htruthy, Bool.false_eq_true, if_false, ite_false, if_true, hnotlt]
    refine ⟨_, rfl, ?_⟩
    rw [List.length_take, shuffleArray_length]
    exact Nat.min_eq_left hcount

/-- Witness for C2 at the end-to-end record: three images, pairwise
distinct types. -/
theorem perType_sampler_distinct_types_witness :
    ∃ q, buildQuestionJS [0, 1] [0, 0, 0] franceEntry defaultOpts = some q ∧
      q.images.length = 3 ∧ (q.images.map (fun i => i.type)).Nodup :=
  (perType_sampler_distinct_types franceEntry defaultOpts [0, 1] [0, 0, 0]
    (by decide)).1 rfl (by decide)

theorem mem_addKey {k a : String} {l : List String} : k ∈ addKey a l ↔ k = a ∨ k ∈ l := by
  unfold addKey
  by_cases h : a ∈ l
  · simp only [h, if_true, ite_true]
    constructor
    · exact Or.inr
    · rintro (rfl | hk)
      · exact h
      · exact hk
  · simp [h, List.mem_cons]

theorem contains_false_not_mem {k : String} {l : List String}
    (h : l.contains k = false) : k ∉ l := by
  intro hm
  simp [List.contains, hm] at h

theorem not_mem_contains_false {k : String} {l : List String} (h : k ∉ l) :
    l.contains k = false := by
  cases hc : l.contains k
  · rfl
  · exact absurd (by simpa [List.contains] using hc) h

/-- C9: one ledger draw never returns an image whose `type|url` key is
already recorded, unless every image of the item's type is recorded, in
which case the ledger entries for that type are cleared (and the new
cycle starts from the shuffled list); the returned image is always an
image of the item and its key is always added to the ledger. -/
theorem ledger_no_repeat_until_exhausted (rs : List Nat) (it : CountryItem)
    (used : List String) (hne : it.images ≠ []) (hurl : ∀ u ∈ it.images, u ≠ "") :
    (pickImage rs it used).1.type = it.type ∧
    (pickImage rs it used).1.url ∈ it.images ∧
    ((∃ u ∈ it.images, ledgerKey it.type u ∉ used) →
      ledgerKey it.type (pickImage rs it used).1.url ∉ used) ∧
    ((∀ u ∈ it.images, ledgerKey it.type u ∈ used) →
      ∀ k, k ∈ (pickImage rs it used).2 ↔
        (k = ledgerKey it.type (pickImage rs it used).1.url ∨
          (k ∈ used ∧ k ∉ it.images.map (ledgerKey it.type)))) ∧
    ledgerKey it.type (pickImage rs it used).1.url ∈ (pickImage rs it used).2 := by
  have himgs_ne : shuffleArray rs it.images ≠ [] := by
    intro h
    apply hne
    have hlen := shuffleArray_length rs it.images
    rw [h] at hlen
    exact List.length_eq_zero.mp hlen.symm
  cases hfind : (shuffleArray rs it.images).find?
      (fun u => !(used.contains (ledgerKey it.type u))) with
  | some c =>
    have hcmem : c ∈ it.images := shuffleArray_mem.mp (List.mem_of_find?_eq_some hfind)
    have hcne : c ≠ "" := hurl c hcmem
    have hcun_b := List.find?_some hfind
    have hcun : ledgerKey it.type c ∉ used := by
      intro hm
      simp [List.contains, hm] at hcun_b
    have hred : pickImage rs it used =
        ({ url := c, type := it.type }, addKey (ledgerKey it.type c) used) := by
      simp only [pickImage]
      rw [hfind]
      simp [hcne]
    rw [hred]
    refine ⟨rfl, hcmem, fun _ => hcun, fun hall => ?_, mem_addKey.mpr (Or.inl rfl)⟩
    exact absurd (hall c hcmem) hcun
  | none =>
    have hall2 : ∀ u ∈ it.images, ledgerKey it.type u ∈ used := by
      intro u hu
      have hnp := List.find?_eq_none.mp hfind u (shuffleArray_mem.mpr hu)
      by_cases hm : ledgerKey it.type u ∈ used
      · exact hm
      · exfalso
        apply hnp
        rw [not_mem_contains_false hm]
        rfl
    have hred : pickImage rs it used = resetPick (shuffleArray rs it.images) it used := by
      simp only [pickImage]
      rw [hfind]
    obtain ⟨c0, tl, hsh⟩ : ∃ c0 tl, shuffleArray rs it.images = c0 :: tl := by
      cases hs : shuffleArray rs it.images with
      | nil => exact absurd hs himgs_ne
      | cons a l => exact ⟨a, l, rfl⟩
    have hc0sh : c0 ∈ shuffleArray rs it.images := by
      rw [hsh]
      exact List.mem_cons_self _ _
    have hc0mem : c0 ∈ it.images := shuffleArray_mem.mp hc0sh
    have hreset : resetPick (c0 :: tl) it used =
        ({ url := c0, type := it.type },
          addKey (ledgerKey it.type c0) (removeItemKeys it used)) := by
      simp [resetPick]
    rw [hred, hsh, hreset]
    refine ⟨rfl, hc0mem, fun hex => ?_, fun hall => ?_, mem_addKey.mpr (Or.inl rfl)⟩
    · obtain ⟨u, hu, hun⟩ := hex
      exact absurd (hall2 u hu) hun
    · intro k
      rw [mem_addKey]
      apply or_congr Iff.rfl
      unfold removeItemKeys
      rw [List.mem_filter]
      constructor
      · rintro ⟨hm, hb⟩
        refine ⟨hm, ?_⟩
        simp only [List.contains] at hb
        intro hk
        rcases List.mem_map.mp hk with ⟨u, hu, huk⟩
        simp at hb
        exact hb u hu huk
      · rintro ⟨hm, hnk⟩
        refine ⟨hm, ?_⟩
        rw [not_mem_contains_false hnk]
        rfl

/-- Witness for C9: with `bollard|a` recorded, the draw for the bollard
item returns the unused image `b`. -/
theorem ledger_no_repeat_until_exhausted_witness :
    ledgerKey "bollard" (pickImage [0] ⟨"bollard", ["a", "b"]⟩ ["bollard|a"]).1.url ∉
      (["bollard|a"] : List String) :=
  (ledger_no_repeat_until_exhausted [0] ⟨"bollard", ["a", "b"]⟩ ["bollard|a"]
    (by decide) (by decide)).2.2.1 (by decide)

theorem allowedChar_cases {c : Char} (h : allowedChar c = true) :
    (97 ≤ c.toNat ∧ c.toNat ≤ 122) ∨ c = Char.ofNat 39 ∨ c = '-' ∨ c = ' ' := by
  have h2 := h
  simp [allowedChar] at h2
  tauto

theorem allowedChar_toNat_lt {c : Char} (h : allowedChar c = true) : c.toNat < 128 := by
  rcases allowedChar_cases h with ⟨h1, h2⟩ | h3 | h3 | h3
  · omega
  · subst h3; decide
  · subst h3; decide
  · subst h3; decide

theorem allowedChar_not_upper {c : Char} (h : allowedChar c = true) :
    ¬(65 ≤ c.toNat ∧ c.toNat ≤ 90) := by
  rcases allowedChar_cases h with ⟨h1, h2⟩ | h3 | h3 | h3
  · omega
  · subst h3; decide
  · subst h3; decide
  · subst h3; decide

theorem jsLowerChar_allowed {c : Char} (h : allowedChar c = true) : jsLowerChar c = c := by
  unfold jsLowerChar
  rw [if_pos (allowedChar_toNat_lt h), if_neg (allowedChar_not_upper h)]

theorem nfdChar_allowed {c : Char} (h : allowedChar c = true) : nfdChar c = [c] := by
  unfold nfdChar
  rw [if_pos (allowedChar_toNat_lt h)]

theorem isCombining_allowed {c : Char} (h : allowedChar c = true) : isCombining c = false := by
  have hlt := allowedChar_toNat_lt h
  unfold isCombining
  have : ¬ (768 ≤ c.toNat) := by omega
  simp [this]

theorem keepChar_allowed {c : Char} (h : allowedChar c = true) : keepChar c = true := by
  rcases allowedChar_cases h with ⟨h1, h2⟩ | h3 | h3 | h3
  · simp only [keepChar, Bool.or_eq_true, Bool.and_eq_true, decide_eq_true_eq]
    exact Or.inl (Or.inl (Or.inl ⟨h1, h2⟩))
  · subst h3; decide
  · subst h3; decide
  · subst h3; decide

theorem dropWhile_noWsLead (l : List Char) : noWsLead (l.dropWhile isJsWs) := by
  induction l with
  | nil => trivial
  | cons c t ih =>
    cases h : isJsWs c
    · simp [List.dropWhile_cons, h, noWsLead]
    · simpa [List.dropWhile_cons, h] using ih

theorem dropWhile_eq_self_of_noWsLead {m : List Char} (h : noWsLead m) :
    m.dropWhile isJsWs = m := by
  cases m with
  | nil => rfl
  | cons c t =>
    simp only [noWsLead] at h
    simp [List.dropWhile_cons, h]

theorem rstrip_noWsTrail (m : List Char) : noWsTrail (rstrip m) := by
  induction m with
  | nil => trivial
  | cons c t ih =>
    simp only [rstrip]
    cases hr : rstrip t with
    | nil =>
      cases hw : isJsWs c
      · simp [hw, noWsTrail]
      · simp [hw, noWsTrail]
    | cons d r =>
      rw [hr] at ih
      simpa [noWsTrail] using ih

theorem rstrip_noWsLead {m : List Char} (h : noWsLead m) : noWsLead (rstrip m) := by
  cases m with
  | nil => trivial
  | cons c t =>
    simp only [noWsLead] at h
    simp only [rstrip]
    cases hr : rstrip t with
    | nil => simp [h, noWsLead]
    | cons d r => simp [noWsLead, h]

theorem rstrip_eq_self : ∀ {m : List Char}, noWsTrail m → rstrip m = m
  | [], _ => rfl
  | [c], h => by
    simp only [noWsTrail] at h
    simp [rstrip, h]
  | c :: d :: t, h => by
    have h2 : noWsTrail (d :: t) := by simpa [noWsTrail] using h
    have ih := rstrip_eq_self h2
    rw [show rstrip (c :: d :: t) = (match rstrip (d :: t) with
        | [] => if isJsWs c = true then [] else [c]
        | r => c :: r) from rfl, ih]

theorem collapseWs_cons_not_ws {d : Char} (r : List Char) (h : isJsWs d = false) :
    collapseWs (d :: r) = d :: collapseWs r := by
  cases r with
  | nil => simp [collapseWs, h]
  | cons e r2 => simp [collapseWs, h]

theorem collapseWs_cons_ws_ws {c d : Char} (r : List Char) (hc : isJsWs c = true)
    (hd : isJsWs d = true) : collapseWs (c :: d :: r) = collapseWs (d :: r) := by
  simp [collapseWs, hc, hd]

theorem collapseWs_cons_ws_not {c d : Char} (r : List Char) (hc : isJsWs c = true)
    (hd : isJsWs d = false) : collapseWs (c :: d :: r) = ' ' :: collapseWs (d :: r) := by
  simp [collapseWs, hc, hd]

theorem collapseWs_singleton_ws {c : Char} (hc : isJsWs c = true) :
    collapseWs [c] = [' '] := by
  simp [collapseWs, hc]

theorem collapseWs_ne_nil : ∀ {m : List Char}, m ≠ [] → collapseWs m ≠ []
  | [], h => absurd rfl h
  | [c], _ => by
    cases hc : isJsWs c <;> simp [collapseWs, hc]
  | c :: d :: r, _ => by
    cases hc : isJsWs c
    · rw [collapseWs_cons_not_ws _ hc]
      simp
    · cases hd : isJsWs d
      · rw [collapseWs_cons_ws_not _ hc hd]
        simp
      · rw [collapseWs_cons_ws_ws _ hc hd]
        exact collapseWs_ne_nil (by simp)

theorem collapseWs_idem : ∀ (m : List Char), collapseWs (collapseWs m) = collapseWs m
  | [] => rfl
  | [c] => by
    cases hc : isJsWs c
    · simp [collapseWs, hc]
    · rw [collapseWs_singleton_ws hc, collapseWs_singleton_ws (by decide)]
  | c :: d :: r => by
    cases hc : isJsWs c
    · rw [collapseWs_cons_not_ws _ hc, collapseWs_cons_not_ws _ hc, collapseWs_idem (d :: r)]
    · cases hd : isJsWs d
      · rw [collapseWs_cons_ws_not _ hc hd]
        rw [collapseWs_cons_not_ws r hd]
        rw [collapseWs_cons_ws_not _ (by decide) hd]
        rw [collapseWs_cons_not_ws _ hd]
        rw [collapseWs_idem r]
      · rw [collapseWs_cons_ws_ws _ hc hd]
        exact collapseWs_idem (d :: r)

theorem collapseWs_noWsLead : ∀ {m : List Char}, noWsLead m → noWsLead (collapseWs m)
  | [], _ => trivial
  | [c], h => by
    simp only [noWsLead] at h
    simp [collapseWs, h, noWsLead]
  | c :: d :: r, h => by
    simp only [noWsLead] at h
    rw [collapseWs_cons_not_ws _ h]
    simp [noWsLead, h]

theorem collapseWs_noWsTrail : ∀ {m : List Char}, noWsTrail m → noWsTrail (collapseWs m)
  | [], _ => trivial
  | [c], h => by
    simp only [noWsTrail] at h
    simp [collapseWs, h, noWsTrail]
  | c :: d :: r, h => by
    have h2 : noWsTrail (d :: r) := by simpa [noWsTrail] using h
    have ih := collapseWs_noWsTrail h2
    have hne := collapseWs_ne_nil (m := d :: r) (by simp)
    cases hc : isJsWs c
    · rw [collapseWs_cons_not_ws _ hc]
      cases hX : collapseWs (d :: r) with
      | nil => exact absurd hX hne
      | cons e X2 =>
        rw [hX] at ih
        simpa [noWsTrail] using ih
    · cases hd : isJsWs d
      · rw [collapseWs_cons_ws_not _ hc hd]
        cases hX : collapseWs (d :: r) with
        | nil => exact absurd hX hne
        | cons e X2 =>
          rw [hX] at ih
          simpa [noWsTrail] using ih
      · rw [collapseWs_cons_ws_ws _ hc hd]
        exact ih

theorem mem_rstrip : ∀ {m : List Char} {c : Char}, c ∈ rstrip m → c ∈ m
  | [], c, h => by simp [rstrip] at h
  | a :: t, c, h => by
    simp only [rstrip] at h
    cases hr : rstrip t with
    | nil =>
      rw [hr] at h
      cases hw : isJsWs a
      · rw [if_neg (by simp [hw])] at h
        simp at h
        simp [h]
      · rw [if_pos (by simp [hw])] at h
        simp at h
    | cons d r =>
      rw [hr] at h
      rcases List.mem_cons.mp h with rfl | h2
      · exact List.mem_cons_self _ _
      · have h3 : c ∈ rstrip t := by rw [hr]; exact h2
        exact List.mem_cons_of_mem _ (mem_rstrip h3)

theorem mem_trimChars {l : List Char} {c : Char} (h : c ∈ trimChars l) : c ∈ l := by
  unfold trimChars at h
  exact (List.dropWhile_sublist isJsWs).subset (mem_rstrip h)

theorem mem_collapseWs : ∀ {m : List Char} {c : Char}, c ∈ collapseWs m → c ∈ m ∨ c = ' '
  | [], c, h => by simp [collapseWs] at h
  | [a], c, h => by
    cases hw : isJsWs a
    · rw [collapseWs_cons_not_ws _ hw] at h
      rcases List.mem_cons.mp h with rfl | h2
      · exact Or.inl (List.mem_cons_self _ _)
      · simp [collapseWs] at h2
    · rw [collapseWs_singleton_ws hw] at h
      simp at h
      exact Or.inr h
  | a :: d :: r, c, h => by
    cases hw : isJsWs a
    · rw [collapseWs_cons_not_ws _ hw] at h
      rcases List.mem_cons.mp h with rfl | h2
      · exact Or.inl (List.mem_cons_self _ _)
      · rcases mem_collapseWs h2 with h3 | h3
        · exact Or.inl (List.mem_cons_of_mem _ h3)
        · exact Or.inr h3
    · cases hd : isJsWs d
      · rw [collapseWs_cons_ws_not _ hw hd] at h
        rcases List.mem_cons.mp h with rfl | h2
        · exact Or.inr rfl
        · rcases mem_collapseWs h2 with h3 | h3
          · exact Or.inl (List.mem_cons_of_mem _ h3)
          · exact Or.inr h3
      · rw [collapseWs_cons_ws_ws _ hw hd] at h
        rcases mem_collapseWs h with h3 | h3
        · exact Or.inl (List.mem_cons_of_mem _ h3)
        · exact Or.inr h3

theorem nfdExpand_allowed : ∀ {l : List Char}, (∀ c ∈ l, allowedChar c = true) →
    nfdExpand l = l
  | [], _ => rfl
  | c :: t, h => by
    simp only [nfdExpand]
    rw [nfdChar_allowed (h c (List.mem_cons_self _ _)),
      nfdExpand_allowed (fun d hd => h d (List.mem_cons_of_mem _ hd))]
    rfl

theorem stripDiacritics_allowed {l : List Char} (h : ∀ c ∈ l, allowedChar c = true) :
    stripDiacritics l = l := by
  unfold stripDiacritics
  rw [nfdExpand_allowed h]
  apply List.filter_eq_self.mpr
  intro c hc
  simp [isCombining_allowed (h c hc)]

theorem map_jsLower_allowed {l : List Char} (h : ∀ c ∈ l, allowedChar c = true) :
    l.map jsLowerChar = l := by
  have h2 : l.map jsLowerChar = l.map id :=
    List.map_congr_left (fun c hc => jsLowerChar_allowed (h c hc))
  simpa using h2

theorem stripCharset_of_allowed {l : List Char} (h : ∀ c ∈ l, allowedChar c = true) :
    stripCharset l = l := by
  apply List.filter_eq_self.mpr
  intro c hc
  exact keepChar_allowed (h c hc)

theorem trimChars_allowed_mem {l : List Char} (h : ∀ c ∈ l, allowedChar c = true) :
    ∀ c ∈ trimChars l, allowedChar c = true :=
  fun c hc => h c (mem_trimChars hc)

theorem collapse_trim_allowed_mem {l : List Char} (h : ∀ c ∈ l, allowedChar c = true) :
    ∀ c ∈ collapseWs (trimChars l), allowedChar c = true := by
  intro c hc
  rcases mem_collapseWs hc with h2 | rfl
  · exact h c (mem_trimChars h2)
  · decide

theorem pipelineChars_allowed {l : List Char} (h : ∀ c ∈ l, allowedChar c = true) :
    pipelineChars l = collapseWs (trimChars l) := by
  unfold pipelineChars
  rw [map_jsLower_allowed (trimChars_allowed_mem h),
    stripDiacritics_allowed (trimChars_allowed_mem h),
    stripCharset_of_allowed (collapse_trim_allowed_mem h)]

theorem trimChars_collapse_trim (l : List Char) :
    trimChars (collapseWs (trimChars l)) = collapseWs (trimChars l) := by
  have hlead : noWsLead (trimChars l) := rstrip_noWsLead (dropWhile_noWsLead l)
  have htrail : noWsTrail (trimChars l) := rstrip_noWsTrail _
  have hlead2 : noWsLead (collapseWs (trimChars l)) := collapseWs_noWsLead hlead
  have htrail2 : noWsTrail (collapseWs (trimChars l)) := collapseWs_noWsTrail htrail
  unfold trimChars
  rw [dropWhile_eq_self_of_noWsLead (by
    unfold trimChars at hlead2
    exact hlead2)]
  apply rstrip_eq_self
  unfold trimChars at htrail2
  exact htrail2

theorem alias_values_good :
    ∀ p ∈ ALIASES, p.2 ≠ "" ∧ pipelineChars p.2.data = p.2.data ∧
      ALIASES.lookup p.2 = none := by
  decide

theorem lookup_mem {k v : String} : ∀ {ps : List (String × String)},
    ps.lookup k = some v → (k, v) ∈ ps
  | [], h => by simp [List.lookup] at h
  | (a, b) :: t, h => by
    by_cases hk : k = a
    · subst hk
      have hb : b = v := by
        simpa [List.lookup] using h
      subst hb
      exact List.mem_cons_self _ _
    · have hkb : (k == a) = false := by simp [hk]
      have h2 : List.lookup k t = some v := by
        simpa [List.lookup, hkb] using h
      exact List.mem_cons_of_mem _ (lookup_mem h2)

theorem normalizeCountryName_eq {s : String} (hs : s ≠ "") :
    normalizeCountryName s = aliasCanon (String.mk (pipelineChars s.data)) := by
  simp [normalizeCountryName, hs]

/-- C4 (amended): the normalizer is idempotent on every string whose
characters are lowercase ASCII letters, apostrophes, hyphens, or spaces
(in particular on every cleaned-up country name); on arbitrary strings a
stripped character adjacent to whitespace can break idempotence (see the
counterexample). -/
theorem normalize_idempotent_on_clean_strings (s : String)
    (h : ∀ c ∈ s.data, allowedChar c = true) :
    normalizeCountryName (normalizeCountryName s) = normalizeCountryName s := by
  by_cases hs : s = ""
  · subst hs
    rfl
  · have hpipe : pipelineChars s.data = collapseWs (trimChars s.data) :=
      pipelineChars_allowed h
    have h1 : normalizeCountryName s =
        aliasCanon (String.mk (collapseWs (trimChars s.data))) := by
      rw [normalizeCountryName_eq hs, hpipe]
    cases hA : ALIASES.lookup (String.mk (collapseWs (trimChars s.data))) with
    | some v =>
      have h2 : normalizeCountryName s = v := by
        rw [h1]
        simp [aliasCanon, hA]
      rw [h2]
      obtain ⟨hvne, hvpipe, hvnone⟩ :=
        alias_values_good (String.mk (collapseWs (trimChars s.data)), v) (lookup_mem hA)
      rw [normalizeCountryName_eq hvne, hvpipe]
      show aliasCanon v = v
      simp [aliasCanon, hvnone]
    | none =>
      have h2 : normalizeCountryName s = String.mk (collapseWs (trimChars s.data)) := by
        rw [h1]
        simp [aliasCanon, hA]
      rw [h2]
      by_cases hRe : String.mk (collapseWs (trimChars s.data)) = ""
      · rw [hRe]
        rfl
      · rw [normalizeCountryName_eq hRe]
        have hrall : ∀ c ∈ collapseWs (trimChars s.data), allowedChar c = true :=
          collapse_trim_allowed_mem h
        show aliasCanon (String.mk (pipelineChars (collapseWs (trimChars s.data)))) =
          String.mk (collapseWs (trimChars s.data))
        rw [pipelineChars_allowed hrall, trimChars_collapse_trim s.data,
          collapseWs_idem (trimChars s.data)]
        simp [aliasCanon, hA]

/-- Witness for C4 at the clean string "usa" (which also exercises the
alias step). -/
theorem normalize_idempotent_on_clean_strings_witness :
    normalizeCountryName (normalizeCountryName "usa") = normalizeCountryName "usa" :=
  normalize_idempotent_on_clean_strings "usa" (by decide)
